import Mathlib

/-!
Verification development for the pdf_to_text converter
(src/pdf_to_text/pdf_to_text.py).

The external pdfplumber library is modelled abstractly: a page carries its
dimensions, its extractable text, a text oracle for rectangular regions, its
detected tables and its embedded image bounding boxes.  The library raises
ValueError when within_bbox is given a degenerate or out-of-page bounding
box (and the script catches exactly that error around region text extraction
and image cropping); this is modelled by bboxOk.  Character classes of the
Python regular expressions are modelled over their ASCII fragment, and page
coordinates are modelled as exact integers: every geometric step of the
script (band offsets of 40 units, clipping at 0 and at the page edges,
emptiness tests) is order-and-ring arithmetic that behaves identically on
the exact values the claims speak about.
-/

/-- ASCII fragment of the whitespace class of Python regular expressions. -/
def isReSpace (c : Char) : Bool :=
  c == ' ' || c == '\t' || c == '\n' || c == '\r' || c == '\x0b' || c == '\x0c'

/-- ASCII digit class of Python regular expressions. -/
def isReDigit (c : Char) : Bool :=
  c == '0' || c == '1' || c == '2' || c == '3' || c == '4' ||
    c == '5' || c == '6' || c == '7' || c == '8' || c == '9' 

/-- Characters matched by the separator class colon, period, dash, whitespace
in the caption pattern. -/
def isSepCh (c : Char) : Bool := c == ':' || c == '.' || c == '-' || isReSpace c

/-- ASCII fragment of the word class of Python regular expressions:
letters, digits and the underscore. -/
def isWordCh (c : Char) : Bool := c.isAlpha || isReDigit c || c == '_'

/-- Characters kept as themselves by the filename clean-up, the complement of
the substituted class: word characters and the hyphen. -/
def isKeep (c : Char) : Bool := isWordCh c || c == '-'

/-- Python str.strip (ASCII whitespace fragment). -/
def pstrip (s : String) : String :=
  ⟨((s.data.dropWhile isReSpace).reverse.dropWhile isReSpace).reverse⟩

/-- Helper of splitLines: first argument is the remaining input, second the
current chunk reversed. -/
def splitLinesAux : List Char → List Char → List String
  | [], cur => [⟨cur.reverse⟩]
  | c :: cs, cur =>
    if c == '\n' then ⟨cur.reverse⟩ :: splitLinesAux cs []
    else splitLinesAux cs (c :: cur)

/-- Python text.split over the newline character. -/
def splitLines (s : String) : List String := splitLinesAux s.data []

/-- Helper of pysub, scanning left to right; the flag records whether the scan
stands inside a run of substituted characters whose underscore was already
emitted. -/
def sanitizeAux : Bool → List Char → List Char
  | _, [] => []
  | inRun, c :: cs =>
    if isKeep c then c :: sanitizeAux false cs
    else if inRun then sanitizeAux true cs
    else '_' :: sanitizeAux true cs

/-- The substitution re.sub of the non-word non-hyphen class by an underscore,
line 59 of the source: each maximal run of substituted characters becomes one
underscore. -/
def pysub (s : String) : String := ⟨sanitizeAux false s.data⟩

/-- Case-insensitive literal prefix matcher: the first argument is the pattern
in lowercase, the result is the remaining input after the pattern. -/
def stripPrefixCI : List Char → List Char → Option (List Char)
  | [], cs => some cs
  | _ :: _, [] => none
  | p :: ps, c :: cs => if c.toLower = p then stripPrefixCI ps cs else none

/-- The part of the caption regular expression after the label alternation:
greedy whitespace, one or more digits (greedy), greedy separator run, then
the dot-star capture group, which stops at a newline. -/
def afterLabel (cs : List Char) : Option (List Char) :=
  let cs1 := cs.dropWhile isReSpace
  if (cs1.takeWhile isReDigit).isEmpty then none
  else some (((cs1.dropWhile isReDigit).dropWhile isSepCh).takeWhile
    (fun c => !(c == '\n')))

/-- Anchored match of the caption regular expression of line 55 of the source,
returning the second capture group.  The alternation tries Table first, then
Figure, then Fig, mirroring the preference order of the regex with its
greedy optional group. -/
def regexGroup2 (line : String) : Option String :=
  match (stripPrefixCI "table".data line.data).bind afterLabel with
  | some r => some ⟨r⟩
  | none =>
    match (stripPrefixCI "figure".data line.data).bind afterLabel with
    | some r => some ⟨r⟩
    | none => ((stripPrefixCI "fig".data line.data).bind afterLabel).map (⟨·⟩)

/-- Handling of one candidate line, lines 55 to 60 of the source: none means
the line does not match and scanning continues; some r means the function
returns r (which is none when the cleaned caption is empty). -/
def lineCaption (line : String) : Option (Option String) :=
  match regexGroup2 line with
  | none => none
  | some g2 =>
    let caption := pysub (pstrip g2)
    some (if caption = "" then none else some ⟨caption.data.take 40⟩)

/-- Line preparation of line 52 of the source: split on newlines, strip each
line, keep the non-empty ones. -/
def cleanLines (text : String) : List String :=
  ((splitLines text).map pstrip).filter (fun l => !(l = ""))

/-- Scan of the prepared lines of one region: the first matching line decides. -/
def lineScan : List String → Option (Option String)
  | [] => none
  | l :: ls =>
    match lineCaption l with
    | some r => some r
    | none => lineScan ls

/-- A bounding box in page space, four coordinates as in the source tuples. -/
structure BBox where
  x0 : ℤ
  top : ℤ
  x1 : ℤ
  bottom : ℤ
deriving DecidableEq

/-- A pdfplumber table: rows of cells, a cell possibly None. -/
abbrev Table := List (List (Option String))

/-- Abstract model of a pdfplumber page: dimensions, the extract_text result,
a text oracle for valid sub-regions, the extract_tables result, and the
bounding boxes of the embedded images. -/
structure Page where
  width : ℤ
  height : ℤ
  pageText : Option String
  regionText : BBox → Option String
  tables : List Table
  images : List BBox

/-- Python builtin max on two numbers. -/
def pymax (a b : ℤ) : ℤ := if a ≤ b then b else a

/-- Python builtin min on two numbers. -/
def pymin (a b : ℤ) : ℤ := if a ≤ b then a else b

/-- Validity of a bounding box for within_bbox: positive extent in both axes
and containment in the page.  within_bbox raises ValueError otherwise. -/
def bboxOk (p : Page) (b : BBox) : Bool :=
  decide (b.x0 < b.x1) && decide (b.top < b.bottom) &&
    decide (0 ≤ b.x0) && decide (b.x1 ≤ p.width) &&
    decide (0 ≤ b.top) && decide (b.bottom ≤ p.height)

/-- Model of within_bbox(area).extract_text() or the empty string, under the
try of line 47: none models the caught ValueError. -/
def withinText (p : Page) (b : BBox) : Option String :=
  if bboxOk p b then some ((p.regionText b).getD "") else none

/-- The first search area of find_caption: a 40-unit band above the box,
clipped at the page top. -/
def aboveBand (b : BBox) : BBox := ⟨b.x0, pymax 0 (b.top - 40), b.x1, b.top⟩

/-- The second search area of find_caption: a 40-unit band below the box,
clipped at the page bottom. -/
def belowBand (p : Page) (b : BBox) : BBox :=
  ⟨b.x0, b.bottom, b.x1, pymin p.height (b.bottom + 40)⟩

/-- The loop over search areas of find_caption: a region whose extraction
fails is skipped, the first matching line of the first readable region
decides the result of the whole search. -/
def areaScan (p : Page) : List BBox → Option String
  | [] => none
  | a :: rest =>
    match withinText p a with
    | none => areaScan p rest
    | some t =>
      match lineScan (cleanLines t) with
      | some r => r
      | none => areaScan p rest

/-- find_caption of lines 39 to 61 of the source. -/
def find_caption (p : Page) (b : BBox) : Option String :=
  areaScan p [aboveBand b, belowBand p b]

/-- One output artifact: the text file, a table CSV, or an image PNG.  The
PNG records the bounding box that was cropped. -/
inductive Artifact where
  | text : String → String → Artifact
  | csv : String → Table → Artifact
  | png : String → BBox → Artifact
deriving DecidableEq

/-- Filename of an artifact. -/
def Artifact.name : Artifact → String
  | .text n _ => n
  | .csv n _ => n
  | .png n _ => n

/-- An opened document: its ordered pages. -/
structure PDF where
  pages : List Page

/-- Concatenated text of all pages, lines 66 to 68 of the source: a page
without extractable text contributes the empty string. -/
def fullText (pdf : PDF) : String :=
  pdf.pages.foldl (fun acc p => acc ++ p.pageText.getD "") ""

/-- Decimal digit character. -/
def digitChar : Nat → Char
  | 0 => '0'
  | 1 => '1'
  | 2 => '2'
  | 3 => '3'
  | 4 => '4'
  | 5 => '5'
  | 6 => '6'
  | 7 => '7'
  | 8 => '8'
  | _ => '9'

/-- Fuel-driven decimal writer; the fuel bounds the number of digits. -/
def reprGo : Nat → Nat → List Char
  | 0, _ => []
  | f + 1, n =>
    if n < 10 then [digitChar n]
    else reprGo f (n / 10) ++ [digitChar (n % 10)]

/-- Decimal representation of a natural number, the model of Python string
formatting of the counters and page numbers. -/
def natRepr (n : Nat) : String := ⟨reprGo (n + 1) n⟩

/-- Python falsy test on the caption, lines 82 and 99 of the source: None or
the empty string select the fallback name. -/
def captionOr (c : Option String) (fallback : String) : String :=
  match c with
  | none => fallback
  | some s => if s = "" then fallback else s

/-- Output filename scheme: stem, underscore, caption or index, page marker,
extension. -/
def outName (stem cap : String) (pg : Nat) (ext : String) : String :=
  stem ++ "_" ++ cap ++ "_p" ++ natRepr pg ++ ext

/-- Table loop of lines 78 to 87 of the source; the second component is the
table counter after the page. -/
def processTables (stem : String) (p : Page) (pg : Nat) :
    List Table → Nat → List Artifact × Nat
  | [], t => ([], t)
  | tbl :: rest, t =>
    let cap := captionOr (find_caption p ⟨0, 0, p.width, p.height⟩)
      ("table_" ++ natRepr t)
    let res := processTables stem p pg rest (t + 1)
    (Artifact.csv (outName stem cap pg ".csv") tbl :: res.1, res.2)

/-- Image loop of lines 89 to 104 of the source: a failed crop (invalid
bounding box) skips the image without touching the counter. -/
def processImages (stem : String) (p : Page) (pg : Nat) :
    List BBox → Nat → List Artifact × Nat
  | [], i => ([], i)
  | b :: rest, i =>
    if bboxOk p b then
      let cap := captionOr (find_caption p b) ("figure_" ++ natRepr i)
      let res := processImages stem p pg rest (i + 1)
      (Artifact.png (outName stem cap pg ".png") b :: res.1, res.2)
    else
      processImages stem p pg rest i

/-- Page loop of lines 76 to 104 of the source, threading the page number and
the two counters. -/
def processPages (ct ci : Bool) (stem : String) :
    List Page → Nat → Nat → Nat → List Artifact
  | [], _, _, _ => []
  | p :: rest, pg, t, i =>
    let tres := if ct then processTables stem p pg p.tables t else ([], t)
    let ires := if ci then processImages stem p pg p.images i else ([], i)
    tres.1 ++ ires.1 ++ processPages ct ci stem rest (pg + 1) tres.2 ires.2

/-- extract_and_save_from_pdf of lines 63 to 104 of the source, returning the
artifacts it writes, in write order: the text file first, then tables and
images page by page, counters starting at one. -/
def extract_and_save_from_pdf (ct ci : Bool) (stem : String) (pdf : PDF) :
    List Artifact :=
  Artifact.text (stem ++ ".txt") (fullText pdf) ::
    processPages ct ci stem pdf.pages 1 1 1

/-- Names of the CSV artifacts of a list, in order. -/
def csvNames (l : List Artifact) : List String :=
  l.filterMap fun a => match a with | .csv n _ => some n | _ => none

/-- Names of the PNG artifacts of a list, in order. -/
def pngNames (l : List Artifact) : List String :=
  l.filterMap fun a => match a with | .png n _ => some n | _ => none

/-- PNG artifacts of a list with the bounding box each one cropped, in
order. -/
def pngArts (l : List Artifact) : List (String × BBox) :=
  l.filterMap fun a => match a with | .png n b => some (n, b) | _ => none

/-- Fallback CSV filename for the table counter value k. -/
def tblName (stem : String) (k pg : Nat) : String :=
  outName stem ("table_" ++ natRepr k) pg ".csv"

/-- Fallback PNG filename for the image counter value k. -/
def figName (stem : String) (k pg : Nat) : String :=
  outName stem ("figure_" ++ natRepr k) pg ".png"

/-- PNG filename derived from a found caption. -/
def pngCapName (stem cap : String) (pg : Nat) : String :=
  outName stem cap pg ".png"

/-! ### Decimal representation lemmas -/

/-- Numeric value of a digit character. -/
def charVal (c : Char) : Nat := c.toNat - 48

/-- Numeric value of a digit string, most significant digit first. -/
def parseNum (l : List Char) : Nat := l.foldl (fun a c => 10 * a + charVal c) 0

theorem charVal_digitChar : ∀ n, n < 10 → charVal (digitChar n) = n := by decide

theorem isReDigit_digitChar : ∀ n, isReDigit (digitChar n) = true := by
  intro n
  rcases n with _ | _ | _ | _ | _ | _ | _ | _ | _ | n <;> rfl

theorem reprGo_digits : ∀ f n c, c ∈ reprGo f n → isReDigit c = true := by
  intro f
  induction f with
  | zero => intro n c h; simp [reprGo] at h
  | succ f ih =>
    intro n c h
    rw [reprGo] at h
    by_cases h10 : n < 10
    · rw [if_pos h10] at h
      rcases List.mem_singleton.mp h with rfl
      exact isReDigit_digitChar n
    · rw [if_neg h10] at h
      rcases List.mem_append.mp h with h | h
      · exact ih _ _ h
      · rcases List.mem_singleton.mp h with rfl
        exact isReDigit_digitChar (n % 10)

theorem parse_reprGo : ∀ f n, n < 10 ^ f → 1 ≤ f → parseNum (reprGo f n) = n := by
  intro f
  induction f with
  | zero => intro n _ h; omega
  | succ f ih =>
    intro n hn _
    rw [reprGo]
    by_cases h10 : n < 10
    · rw [if_pos h10]
      simp [parseNum, charVal_digitChar n h10]
    · rw [if_neg h10]
      have hf : 1 ≤ f := by
        by_contra hf
        have : f = 0 := by omega
        subst this
        simp at hn
        omega
      have hdiv : n / 10 < 10 ^ f := by
        rw [Nat.div_lt_iff_lt_mul (by norm_num)]
        calc n < 10 ^ (f + 1) := hn
        _ = 10 ^ f * 10 := by rw [pow_succ]
      have hrec := ih (n / 10) hdiv hf
      unfold parseNum
      rw [List.foldl_append]
      show 10 * parseNum (reprGo f (n / 10)) + charVal (digitChar (n % 10)) = n
      rw [hrec, charVal_digitChar (n % 10) (Nat.mod_lt n (by norm_num))]
      omega

theorem parse_natRepr (n : Nat) : parseNum (natRepr n).data = n := by
  have h1 : n < 10 ^ (n + 1) := by
    calc n < 10 ^ n := Nat.lt_pow_self (by norm_num) n
    _ ≤ 10 ^ (n + 1) := Nat.pow_le_pow_right (by norm_num) (by omega)
  exact parse_reprGo (n + 1) n h1 (by omega)

theorem natRepr_inj {m n : Nat} (h : natRepr m = natRepr n) : m = n := by
  have := congrArg (fun s => parseNum s.data) h
  simpa [parse_natRepr] using this

theorem natRepr_digits : ∀ n c, c ∈ (natRepr n).data → isReDigit c = true :=
  fun n c h => reprGo_digits (n + 1) n c h

/-! ### List helper lemmas -/

theorem takeWhile_all {p : Char → Bool} :
    ∀ l : List Char, (∀ c ∈ l, p c = true) → l.takeWhile p = l := by
  intro l h
  exact List.takeWhile_eq_self_iff.mpr h

theorem takeWhile_append_stop {p : Char → Bool} :
    ∀ (xs : List Char) (c : Char) (r : List Char), (∀ d ∈ xs, p d = true) →
      p c = false → (xs ++ c :: r).takeWhile p = xs := by
  intro xs
  induction xs with
  | nil => intro c r _ hc; simp [List.takeWhile, hc]
  | cons x xs ih =>
    intro c r hall hc
    have hx : p x = true := hall x (List.mem_cons_self x xs)
    simp [List.cons_append, List.takeWhile_cons, hx,
      ih c r (fun d hd => hall d (List.mem_cons_of_mem x hd)) hc]

theorem dropWhile_append_stop {p : Char → Bool} :
    ∀ (xs : List Char) (c : Char) (r : List Char), (∀ d ∈ xs, p d = true) →
      p c = false → (xs ++ c :: r).dropWhile p = c :: r := by
  intro xs
  induction xs with
  | nil => intro c r _ hc; simp [List.dropWhile, hc]
  | cons x xs ih =>
    intro c r hall hc
    have hx : p x = true := hall x (List.mem_cons_self x xs)
    simp [List.cons_append, List.dropWhile_cons, hx,
      ih c r (fun d hd => hall d (List.mem_cons_of_mem x hd)) hc]

theorem dropWhile_all {p : Char → Bool} :
    ∀ l : List Char, (∀ c ∈ l, p c = true) → l.dropWhile p = [] := by
  intro l h
  induction l with
  | nil => rfl
  | cons x xs ih =>
    have hx : p x = true := h x (List.mem_cons_self x xs)
    simp [List.dropWhile_cons, hx, ih (fun d hd => h d (List.mem_cons_of_mem x hd))]

theorem isReDigit_underscore : isReDigit '_' = false := by decide

/-- Two digit strings followed by an underscore-led tail decompose uniquely. -/
theorem digit_split {xs ys a b : List Char}
    (hx : ∀ c ∈ xs, isReDigit c = true) (hy : ∀ c ∈ ys, isReDigit c = true)
    (h : xs ++ '_' :: a = ys ++ '_' :: b) : xs = ys ∧ a = b := by
  have hxs : (xs ++ '_' :: a).takeWhile isReDigit = xs :=
    takeWhile_append_stop xs '_' a hx isReDigit_underscore
  have hys : (ys ++ '_' :: b).takeWhile isReDigit = ys :=
    takeWhile_append_stop ys '_' b hy isReDigit_underscore
  have hxy : xs = ys := by rw [← hxs, ← hys, h]
  subst hxy
  refine ⟨rfl, ?_⟩
  have := List.append_cancel_left h
  exact (List.cons.inj this).2

/-! ### Filename structure lemmas -/

theorem string_data_append (a b : String) : (a ++ b).data = a.data ++ b.data := rfl

theorem string_data_inj {a b : String} (h : a.data = b.data) : a = b := by
  cases a
  cases b
  exact congrArg String.mk h

theorem outName_data (stem cap : String) (pg : Nat) (ext : String) :
    (outName stem cap pg ext).data =
      stem.data ++ ('_' :: (cap.data ++ ('_' :: 'p' ::
        ((natRepr pg).data ++ ext.data)))) := by
  simp only [outName, string_data_append, List.append_assoc]
  rfl

/-- Filenames built from the same stem, label and extension determine the
embedded counter value. -/
theorem outName_counter_inj {stem lbl ext : String} {k pg k2 pg2 : Nat}
    (h : outName stem (lbl ++ natRepr k) pg ext =
      outName stem (lbl ++ natRepr k2) pg2 ext) : k = k2 := by
  have hd := congrArg String.data h
  rw [outName_data, outName_data, string_data_append, string_data_append,
    List.append_assoc, List.append_assoc] at hd
  have h2 := List.append_cancel_left hd
  have h3 := (List.cons.inj h2).2
  have h4 := List.append_cancel_left h3
  have h5 := (digit_split (natRepr_digits k) (natRepr_digits k2) h4).1
  exact natRepr_inj (string_data_inj h5)

/-! ### The caption search anchored at the full page bounding box -/

theorem bboxOk_aboveBand_fullPage (p : Page) :
    bboxOk p (aboveBand ⟨0, 0, p.width, p.height⟩) = false := by
  have hmax : pymax 0 ((0 : ℤ) - 40) = 0 := by norm_num [pymax]
  simp [bboxOk, aboveBand, hmax]

theorem bboxOk_belowBand_fullPage (p : Page) :
    bboxOk p (belowBand p ⟨0, 0, p.width, p.height⟩) = false := by
  have hmin : pymin p.height (p.height + 40) = p.height := by
    have h : p.height ≤ p.height + 40 := by linarith
    simp [pymin, h]
  simp [bboxOk, belowBand, hmin]

/-- Both search bands of a full-page anchor collapse to zero height, so the
caption search finds nothing. -/
theorem find_caption_fullPage (p : Page) :
    find_caption p ⟨0, 0, p.width, p.height⟩ = none := by
  have h1 : withinText p (aboveBand ⟨0, 0, p.width, p.height⟩) = none := by
    simp [withinText, bboxOk_aboveBand_fullPage]
  have h2 : withinText p (belowBand p ⟨0, 0, p.width, p.height⟩) = none := by
    simp [withinText, bboxOk_belowBand_fullPage]
  simp [find_caption, areaScan, h1, h2]

/-! ### Artifact list bookkeeping -/

theorem csvNames_append (l1 l2 : List Artifact) :
    csvNames (l1 ++ l2) = csvNames l1 ++ csvNames l2 := by
  simp [csvNames, List.filterMap_append]

theorem pngNames_append (l1 l2 : List Artifact) :
    pngNames (l1 ++ l2) = pngNames l1 ++ pngNames l2 := by
  simp [pngNames, List.filterMap_append]

theorem csvNames_csv_cons (n : String) (tb : Table) (l : List Artifact) :
    csvNames (Artifact.csv n tb :: l) = n :: csvNames l := rfl

theorem csvNames_png_cons (n : String) (b : BBox) (l : List Artifact) :
    csvNames (Artifact.png n b :: l) = csvNames l := rfl

theorem pngNames_png_cons (n : String) (b : BBox) (l : List Artifact) :
    pngNames (Artifact.png n b :: l) = n :: pngNames l := rfl

theorem pngNames_csv_cons (n : String) (tb : Table) (l : List Artifact) :
    pngNames (Artifact.csv n tb :: l) = pngNames l := rfl

/-! ### Characterization of the table loop -/

theorem processTables_snd (stem : String) (p : Page) (pg : Nat) :
    ∀ (tbls : List Table) (t : Nat),
      (processTables stem p pg tbls t).2 = t + tbls.length := by
  intro tbls
  induction tbls with
  | nil => intro t; simp [processTables]
  | cons tb rest ih =>
    intro t
    simp [processTables, ih (t + 1)]
    omega

theorem processTables_cap (stem : String) (p : Page) (pg : Nat)
    (tb : Table) (rest : List Table) (t : Nat) :
    processTables stem p pg (tb :: rest) t =
      (Artifact.csv (tblName stem t pg) tb ::
        (processTables stem p pg rest (t + 1)).1,
       (processTables stem p pg rest (t + 1)).2) := by
  simp [processTables, find_caption_fullPage, captionOr, tblName]

theorem processTables_csvNames_get (stem : String) (p : Page) (pg : Nat) :
    ∀ (tbls : List Table) (t j : Nat) (nm : String),
      (csvNames (processTables stem p pg tbls t).1).get? j = some nm →
      nm = tblName stem (t + j) pg := by
  intro tbls
  induction tbls with
  | nil => intro t j nm h; simp [processTables, csvNames] at h
  | cons tb rest ih =>
    intro t j nm h
    rw [processTables_cap, csvNames_csv_cons] at h
    cases j with
    | zero =>
      rw [List.get?_cons_zero] at h
      have h2 := Option.some.inj h
      rw [← h2]
      norm_num
    | succ j =>
      rw [List.get?_cons_succ] at h
      have h2 := ih (t + 1) j nm h
      rw [h2]
      have h3 : t + 1 + j = t + (j + 1) := by omega
      rw [h3]

theorem processTables_csvNames_length (stem : String) (p : Page) (pg : Nat) :
    ∀ (tbls : List Table) (t : Nat),
      (csvNames (processTables stem p pg tbls t).1).length = tbls.length := by
  intro tbls
  induction tbls with
  | nil => intro t; simp [processTables, csvNames]
  | cons tb rest ih =>
    intro t
    rw [processTables_cap, csvNames_csv_cons]
    simp [ih (t + 1)]

theorem processTables_pngNames (stem : String) (p : Page) (pg : Nat) :
    ∀ (tbls : List Table) (t : Nat),
      pngNames (processTables stem p pg tbls t).1 = [] := by
  intro tbls
  induction tbls with
  | nil => intro t; simp [processTables, pngNames]
  | cons tb rest ih =>
    intro t
    rw [processTables_cap, pngNames_csv_cons]
    exact ih (t + 1)

/-! ### Characterization of the image loop -/

theorem processImages_valid (stem : String) (p : Page) (pg : Nat) (b : BBox)
    (rest : List BBox) (i : Nat) (hok : bboxOk p b = true) :
    processImages stem p pg (b :: rest) i =
      (Artifact.png
          (outName stem (captionOr (find_caption p b) ("figure_" ++ natRepr i))
            pg ".png") b ::
        (processImages stem p pg rest (i + 1)).1,
       (processImages stem p pg rest (i + 1)).2) := by
  simp [processImages, hok]

theorem processImages_skip (stem : String) (p : Page) (pg : Nat) (b : BBox)
    (rest : List BBox) (i : Nat) (hok : bboxOk p b = false) :
    processImages stem p pg (b :: rest) i = processImages stem p pg rest i := by
  simp [processImages, hok]

theorem processImages_snd (stem : String) (p : Page) (pg : Nat) :
    ∀ (imgs : List BBox) (i : Nat),
      (processImages stem p pg imgs i).2 =
        i + imgs.countP (fun b => bboxOk p b) := by
  intro imgs
  induction imgs with
  | nil => intro i; simp [processImages]
  | cons b rest ih =>
    intro i
    by_cases hok : bboxOk p b = true
    · rw [processImages_valid stem p pg b rest i hok]
      simp [List.countP_cons, hok, ih (i + 1)]
      omega
    · rw [processImages_skip stem p pg b rest i (by simpa using hok)]
      simp [List.countP_cons, ih i]
      simp [Bool.eq_false_iff.mpr hok]

theorem processImages_csvNames (stem : String) (p : Page) (pg : Nat) :
    ∀ (imgs : List BBox) (i : Nat),
      csvNames (processImages stem p pg imgs i).1 = [] := by
  intro imgs
  induction imgs with
  | nil => intro i; simp [processImages, csvNames]
  | cons b rest ih =>
    intro i
    by_cases hok : bboxOk p b = true
    · rw [processImages_valid stem p pg b rest i hok, csvNames_png_cons]
      exact ih (i + 1)
    · rw [processImages_skip stem p pg b rest i (by simpa using hok)]
      exact ih i

theorem processImages_pngNames_get (stem : String) (p : Page) (pg : Nat) :
    ∀ (imgs : List BBox) (i j : Nat) (nm : String),
      (pngNames (processImages stem p pg imgs i).1).get? j = some nm →
      nm = figName stem (i + j) pg ∨
        ∃ cap, cap ≠ "" ∧ nm = pngCapName stem cap pg := by
  intro imgs
  induction imgs with
  | nil => intro i j nm h; simp [processImages, pngNames] at h
  | cons b rest ih =>
    intro i j nm h
    by_cases hok : bboxOk p b = true
    · rw [processImages_valid stem p pg b rest i hok, pngNames_png_cons] at h
      cases j with
      | zero =>
        rw [List.get?_cons_zero] at h
        have h2 := Option.some.inj h
        cases hfc : find_caption p b with
        | none =>
          left
          rw [← h2, hfc]
          simp [captionOr, figName]
        | some c =>
          by_cases hc : c = ""
          · left
            rw [← h2, hfc]
            simp [captionOr, hc, figName]
          · right
            refine ⟨c, hc, ?_⟩
            rw [← h2, hfc]
            simp [captionOr, hc, pngCapName]
      | succ j =>
        rw [List.get?_cons_succ] at h
        rcases ih (i + 1) j nm h with h3 | h3
        · left
          rw [h3]
          have h4 : i + 1 + j = i + (j + 1) := by omega
          rw [h4]
        · right
          exact h3
    · rw [processImages_skip stem p pg b rest i (by simpa using hok)] at h
      exact ih i j nm h

theorem processImages_pngNames_get_nocap (stem : String) (p : Page) (pg : Nat) :
    ∀ (imgs : List BBox) (i j : Nat) (nm : String),
      (∀ b ∈ imgs, find_caption p b = none) →
      (pngNames (processImages stem p pg imgs i).1).get? j = some nm →
      nm = figName stem (i + j) pg := by
  intro imgs
  induction imgs with
  | nil => intro i j nm _ h; simp [processImages, pngNames] at h
  | cons b rest ih =>
    intro i j nm hnone h
    by_cases hok : bboxOk p b = true
    · rw [processImages_valid stem p pg b rest i hok, pngNames_png_cons] at h
      cases j with
      | zero =>
        rw [List.get?_cons_zero] at h
        have h2 := Option.some.inj h
        rw [← h2, hnone b (List.mem_cons_self b rest)]
        simp [captionOr, figName]
      | succ j =>
        rw [List.get?_cons_succ] at h
        have h3 := ih (i + 1) j nm
          (fun b2 hb2 => hnone b2 (List.mem_cons_of_mem b hb2)) h
        rw [h3]
        have h4 : i + 1 + j = i + (j + 1) := by omega
        rw [h4]
    · rw [processImages_skip stem p pg b rest i (by simpa using hok)] at h
      exact ih i j nm (fun b2 hb2 => hnone b2 (List.mem_cons_of_mem b hb2)) h

theorem processImages_pngNames_length (stem : String) (p : Page) (pg : Nat) :
    ∀ (imgs : List BBox) (i : Nat),
      (pngNames (processImages stem p pg imgs i).1).length =
        imgs.countP (fun b => bboxOk p b) := by
  intro imgs
  induction imgs with
  | nil => intro i; simp [processImages, pngNames]
  | cons b rest ih =>
    intro i
    by_cases hok : bboxOk p b = true
    · rw [processImages_valid stem p pg b rest i hok, pngNames_png_cons]
      simp [List.countP_cons, hok, ih (i + 1)]
    · rw [processImages_skip stem p pg b rest i (by simpa using hok)]
      simp [List.countP_cons, ih i]
      simp [Bool.eq_false_iff.mpr hok]

/-! ### Characterization of the page loop -/

theorem processPages_cons (ct ci : Bool) (stem : String) (p : Page)
    (rest : List Page) (pg t i : Nat) :
    processPages ct ci stem (p :: rest) pg t i =
      (if ct then processTables stem p pg p.tables t else ([], t)).1 ++
        (if ci then processImages stem p pg p.images i else ([], i)).1 ++
        processPages ct ci stem rest (pg + 1)
          (if ct then processTables stem p pg p.tables t else ([], t)).2
          (if ci then processImages stem p pg p.images i else ([], i)).2 := by
  simp [processPages]

theorem images_csvNames_empty (ci : Bool) (stem : String) (p : Page)
    (pg i : Nat) :
    csvNames (if ci then processImages stem p pg p.images i else ([], i)).1
      = [] := by
  by_cases hci : ci
  · simp [hci, processImages_csvNames]
  · simp [hci, csvNames]

theorem tables_pngNames_empty (ct : Bool) (stem : String) (p : Page)
    (pg t : Nat) :
    pngNames (if ct then processTables stem p pg p.tables t else ([], t)).1
      = [] := by
  by_cases hct : ct
  · simp [hct, processTables_pngNames]
  · simp [hct, pngNames]

/-- Every CSV name produced by the page loop is a fallback name whose counter
advances with the position of the CSV in the output order. -/
theorem processPages_csvNames_get (ct ci : Bool) (stem : String) :
    ∀ (pages : List Page) (pg t i j : Nat) (nm : String),
      (csvNames (processPages ct ci stem pages pg t i)).get? j = some nm →
      ∃ pgn, pg ≤ pgn ∧ nm = tblName stem (t + j) pgn := by
  intro pages
  induction pages with
  | nil => intro pg t i j nm h; simp [processPages, csvNames] at h
  | cons p rest ih =>
    intro pg t i j nm h
    rw [processPages_cons, List.append_assoc, csvNames_append, csvNames_append,
      images_csvNames_empty, List.nil_append] at h
    by_cases hct : ct
    · rw [if_pos hct] at h
      have hlen := processTables_csvNames_length stem p pg p.tables t
      by_cases hj : j < (csvNames (processTables stem p pg p.tables t).1).length
      · rw [List.get?_append hj] at h
        exact ⟨pg, le_refl pg,
          processTables_csvNames_get stem p pg p.tables t j nm h⟩
      · rw [List.get?_append_right (le_of_not_lt hj)] at h
        rw [processTables_snd] at h
        obtain ⟨pgn, hpgn, he⟩ := ih (pg + 1) (t + p.tables.length) _ _ nm h
        refine ⟨pgn, by omega, ?_⟩
        rw [he]
        have harith : t + p.tables.length +
            (j - (csvNames (processTables stem p pg p.tables t).1).length) =
            t + j := by omega
        rw [harith]
    · rw [if_neg hct] at h
      simp only [csvNames, List.filterMap_nil, List.nil_append] at h
      obtain ⟨pgn, hpgn, he⟩ := ih (pg + 1) t _ j nm h
      exact ⟨pgn, by omega, he⟩

/-- Every PNG name produced by the page loop is either a fallback name whose
counter advances with the position of the PNG in the output order, or a name
derived from a non-empty caption. -/
theorem processPages_pngNames_get (ct ci : Bool) (stem : String) :
    ∀ (pages : List Page) (pg t i j : Nat) (nm : String),
      (pngNames (processPages ct ci stem pages pg t i)).get? j = some nm →
      ∃ pgn, pg ≤ pgn ∧ (nm = figName stem (i + j) pgn ∨
        ∃ cap, cap ≠ "" ∧ nm = pngCapName stem cap pgn) := by
  intro pages
  induction pages with
  | nil => intro pg t i j nm h; simp [processPages, pngNames] at h
  | cons p rest ih =>
    intro pg t i j nm h
    rw [processPages_cons, List.append_assoc, pngNames_append, pngNames_append,
      tables_pngNames_empty, List.nil_append] at h
    by_cases hci : ci
    · rw [if_pos hci] at h
      have hlen := processImages_pngNames_length stem p pg p.images i
      by_cases hj : j < (pngNames (processImages stem p pg p.images i).1).length
      · rw [List.get?_append hj] at h
        exact ⟨pg, le_refl pg,
          processImages_pngNames_get stem p pg p.images i j nm h⟩
      · rw [List.get?_append_right (le_of_not_lt hj)] at h
        rw [processImages_snd] at h
        obtain ⟨pgn, hpgn, he⟩ :=
          ih (pg + 1) _ (i + p.images.countP (fun b => bboxOk p b)) _ nm h
        refine ⟨pgn, by omega, ?_⟩
        rcases he with he | he
        · left
          rw [he]
          have harith : i + p.images.countP (fun b => bboxOk p b) +
              (j - (pngNames (processImages stem p pg p.images i).1).length) =
              i + j := by omega
          rw [harith]
        · right
          exact he
    · rw [if_neg hci] at h
      simp only [pngNames, List.filterMap_nil, List.nil_append] at h
      obtain ⟨pgn, hpgn, he⟩ := ih (pg + 1) _ i j nm h
      exact ⟨pgn, by omega, he⟩

/-- When no image caption is ever found, every PNG name is the fallback name
with the advancing counter. -/
theorem processPages_pngNames_get_nocap (ct ci : Bool) (stem : String) :
    ∀ (pages : List Page) (pg t i j : Nat) (nm : String),
      (∀ p ∈ pages, ∀ b ∈ p.images, find_caption p b = none) →
      (pngNames (processPages ct ci stem pages pg t i)).get? j = some nm →
      ∃ pgn, pg ≤ pgn ∧ nm = figName stem (i + j) pgn := by
  intro pages
  induction pages with
  | nil => intro pg t i j nm _ h; simp [processPages, pngNames] at h
  | cons p rest ih =>
    intro pg t i j nm hnone h
    have hnp : ∀ b ∈ p.images, find_caption p b = none :=
      hnone p (List.mem_cons_self p rest)
    have hnr : ∀ q ∈ rest, ∀ b ∈ q.images, find_caption q b = none :=
      fun q hq => hnone q (List.mem_cons_of_mem p hq)
    rw [processPages_cons, List.append_assoc, pngNames_append, pngNames_append,
      tables_pngNames_empty, List.nil_append] at h
    by_cases hci : ci
    · rw [if_pos hci] at h
      have hlen := processImages_pngNames_length stem p pg p.images i
      by_cases hj : j < (pngNames (processImages stem p pg p.images i).1).length
      · rw [List.get?_append hj] at h
        exact ⟨pg, le_refl pg,
          processImages_pngNames_get_nocap stem p pg p.images i j nm hnp h⟩
      · rw [List.get?_append_right (le_of_not_lt hj)] at h
        rw [processImages_snd] at h
        obtain ⟨pgn, hpgn, he⟩ :=
          ih (pg + 1) _ (i + p.images.countP (fun b => bboxOk p b)) _ nm hnr h
        refine ⟨pgn, by omega, ?_⟩
        rw [he]
        have harith : i + p.images.countP (fun b => bboxOk p b) +
            (j - (pngNames (processImages stem p pg p.images i).1).length) =
            i + j := by omega
        rw [harith]
    · rw [if_neg hci] at h
      simp only [pngNames, List.filterMap_nil, List.nil_append] at h
      obtain ⟨pgn, hpgn, he⟩ := ih (pg + 1) _ i j nm hnr h
      exact ⟨pgn, by omega, he⟩

/-! ### Uniqueness of counter-based names -/

theorem processPages_csvNames_nodup (ct ci : Bool) (stem : String)
    (pages : List Page) (pg t i : Nat) :
    (csvNames (processPages ct ci stem pages pg t i)).Nodup := by
  rw [List.nodup_iff_injective_get]
  intro a b hab
  obtain ⟨pga, _, ea⟩ := processPages_csvNames_get ct ci stem pages pg t i a.1
    _ (List.get?_eq_get a.2)
  obtain ⟨pgb, _, eb⟩ := processPages_csvNames_get ct ci stem pages pg t i b.1
    _ (List.get?_eq_get b.2)
  have hk : tblName stem (t + a.1) pga = tblName stem (t + b.1) pgb := by
    rw [← ea, ← eb]
    exact hab
  have hc : t + a.1 = t + b.1 := outName_counter_inj hk
  exact Fin.ext (by omega)

theorem processPages_pngNames_nodup_nocap (ct ci : Bool) (stem : String)
    (pages : List Page) (pg t i : Nat)
    (hnone : ∀ p ∈ pages, ∀ b ∈ p.images, find_caption p b = none) :
    (pngNames (processPages ct ci stem pages pg t i)).Nodup := by
  rw [List.nodup_iff_injective_get]
  intro a b hab
  obtain ⟨pga, _, ea⟩ := processPages_pngNames_get_nocap ct ci stem pages pg t
    i a.1 _ hnone (List.get?_eq_get a.2)
  obtain ⟨pgb, _, eb⟩ := processPages_pngNames_get_nocap ct ci stem pages pg t
    i b.1 _ hnone (List.get?_eq_get b.2)
  have hk : figName stem (i + a.1) pga = figName stem (i + b.1) pgb := by
    rw [← ea, ← eb]
    exact hab
  have hc : i + a.1 = i + b.1 := outName_counter_inj hk
  exact Fin.ext (by omega)

/-! ### Extracting the name lists of a whole run -/

theorem extract_csvNames (ct ci : Bool) (stem : String) (pdf : PDF) :
    csvNames (extract_and_save_from_pdf ct ci stem pdf) =
      csvNames (processPages ct ci stem pdf.pages 1 1 1) := rfl

theorem extract_pngNames (ct ci : Bool) (stem : String) (pdf : PDF) :
    pngNames (extract_and_save_from_pdf ct ci stem pdf) =
      pngNames (processPages ct ci stem pdf.pages 1 1 1) := rfl

/-! ### Character class facts -/

theorem digit_cases {c : Char} (h : isReDigit c = true) :
    c = '0' ∨ c = '1' ∨ c = '2' ∨ c = '3' ∨ c = '4' ∨ c = '5' ∨ c = '6' ∨
      c = '7' ∨ c = '8' ∨ c = '9' := by
  have h2 := h
  simp [isReDigit] at h2
  tauto

theorem digit_not_space {c : Char} (h : isReDigit c = true) :
    isReSpace c = false := by
  rcases digit_cases h with rfl | rfl | rfl | rfl | rfl | rfl | rfl | rfl |
    rfl | rfl <;> decide

theorem sep_cases {c : Char} (h : isSepCh c = true) :
    c = ':' ∨ c = '.' ∨ c = '-' ∨ c = ' ' ∨ c = '\t' ∨ c = '\n' ∨ c = '\r' ∨
      c = '\x0b' ∨ c = '\x0c' := by
  have h2 := h
  simp [isSepCh, isReSpace] at h2
  tauto

theorem sep_not_digit {c : Char} (h : isSepCh c = true) :
    isReDigit c = false := by
  rcases sep_cases h with rfl | rfl | rfl | rfl | rfl | rfl | rfl | rfl |
    rfl <;> decide

theorem digit_toLower {c : Char} (h : isReDigit c = true) : c.toLower = c := by
  rcases digit_cases h with rfl | rfl | rfl | rfl | rfl | rfl | rfl | rfl |
    rfl | rfl <;> decide

theorem digit_toLower_ne_t {c : Char} (h : isReDigit c = true) :
    ¬(c.toLower = 't') := by
  rcases digit_cases h with rfl | rfl | rfl | rfl | rfl | rfl | rfl | rfl |
    rfl | rfl <;> decide

theorem digit_toLower_ne_f {c : Char} (h : isReDigit c = true) :
    ¬(c.toLower = 'f') := by
  rcases digit_cases h with rfl | rfl | rfl | rfl | rfl | rfl | rfl | rfl |
    rfl | rfl <;> decide

theorem digit_toLower_ne_u {c : Char} (h : isReDigit c = true) :
    ¬(c.toLower = 'u') := by
  rcases digit_cases h with rfl | rfl | rfl | rfl | rfl | rfl | rfl | rfl |
    rfl | rfl <;> decide

theorem space_cases {c : Char} (h : isReSpace c = true) :
    c = ' ' ∨ c = '\t' ∨ c = '\n' ∨ c = '\r' ∨ c = '\x0b' ∨ c = '\x0c' := by
  have h2 := h
  simp [isReSpace] at h2
  tauto

theorem space_toLower_ne_u {c : Char} (h : isReSpace c = true) :
    ¬(c.toLower = 'u') := by
  rcases space_cases h with rfl | rfl | rfl | rfl | rfl | rfl <;> decide

/-! ### Shape of the caption regular expression -/

/-- Side condition on the tail that follows the separator run: the dot-star
capture is maximal only relative to the separator run and the digit run, so
the first tail character must not extend either. -/
def restHeadOK (seps rest : List Char) : Bool :=
  match rest with
  | [] => true
  | c :: _ => !isSepCh c && (!seps.isEmpty || !isReDigit c)

theorem stripPrefixCI_of_ne (p : Char) (ps : List Char) (c : Char)
    (cs : List Char) (h : ¬(c.toLower = p)) :
    stripPrefixCI (p :: ps) (c :: cs) = none := by
  simp [stripPrefixCI, h]

theorem stripPrefixCI_cover :
    ∀ (lbl : List Char) (p tail : List Char), lbl.map Char.toLower = p →
      stripPrefixCI p (lbl ++ tail) = some tail := by
  intro lbl
  induction lbl with
  | nil =>
    intro p tail h
    rw [← h]
    rfl
  | cons c cs ih =>
    intro p tail h
    rw [← h]
    simp only [List.map_cons, List.cons_append, stripPrefixCI, if_pos rfl]
    exact ih (cs.map Char.toLower) tail rfl

theorem afterLabel_shape (ws ds seps rest : List Char)
    (hws : ∀ c ∈ ws, isReSpace c = true)
    (hds : ds ≠ []) (hds2 : ∀ c ∈ ds, isReDigit c = true)
    (hseps : ∀ c ∈ seps, isSepCh c = true)
    (hrest : ∀ c ∈ rest, (!(c == '\n')) = true)
    (hhead : restHeadOK seps rest = true) :
    afterLabel (ws ++ (ds ++ (seps ++ rest))) = some rest := by
  rcases ds with _ | ⟨d, ds'⟩
  · exact absurd rfl hds
  have hd : isReDigit d = true := hds2 d (List.mem_cons_self d ds')
  have hds' : ∀ c ∈ ds', isReDigit c = true :=
    fun c hc => hds2 c (List.mem_cons_of_mem d hc)
  have h1 : (ws ++ (d :: ds' ++ (seps ++ rest))).dropWhile isReSpace =
      d :: ds' ++ (seps ++ rest) := by
    have := dropWhile_append_stop ws d (ds' ++ (seps ++ rest)) hws
      (digit_not_space hd)
    simpa using this
  have h2 : ((d :: ds') ++ (seps ++ rest)).takeWhile isReDigit = d :: ds' := by
    rcases seps with _ | ⟨sc, seps'⟩
    · rcases rest with _ | ⟨r, rest'⟩
      · simpa using takeWhile_all (d :: ds') hds2
      · have hr : isReDigit r = false := by
          simp only [restHeadOK, Bool.and_eq_true, Bool.or_eq_true] at hhead
          rcases hhead.2 with hk | hk
          · simp [List.isEmpty] at hk
          · simpa using hk
        simpa using takeWhile_append_stop (d :: ds') r rest' hds2 hr
    · have hs : isReDigit sc = false :=
        sep_not_digit (hseps sc (List.mem_cons_self sc seps'))
      have := takeWhile_append_stop (d :: ds') sc (seps' ++ rest) hds2 hs
      simpa using this
  have h3 : ((d :: ds') ++ (seps ++ rest)).dropWhile isReDigit =
      seps ++ rest := by
    rcases seps with _ | ⟨sc, seps'⟩
    · rcases rest with _ | ⟨r, rest'⟩
      · simpa using dropWhile_all (d :: ds') hds2
      · have hr : isReDigit r = false := by
          simp only [restHeadOK, Bool.and_eq_true, Bool.or_eq_true] at hhead
          rcases hhead.2 with hk | hk
          · simp [List.isEmpty] at hk
          · simpa using hk
        simpa using dropWhile_append_stop (d :: ds') r rest' hds2 hr
    · have hs : isReDigit sc = false :=
        sep_not_digit (hseps sc (List.mem_cons_self sc seps'))
      have := dropWhile_append_stop (d :: ds') sc (seps' ++ rest) hds2 hs
      simpa using this
  have h4 : (seps ++ rest).dropWhile isSepCh = rest := by
    rcases rest with _ | ⟨r, rest'⟩
    · simpa using dropWhile_all seps hseps
    · have hr : isSepCh r = false := by
        simp only [restHeadOK, Bool.and_eq_true] at hhead
        simpa using hhead.1
      exact dropWhile_append_stop seps r rest' hseps hr
  have h5 : rest.takeWhile (fun c => !(c == '\n')) = rest :=
    takeWhile_all rest hrest
  rw [afterLabel]
  rw [h1]
  simp only [h2, h3, h4, h5]
  have h6 : (d :: ds').isEmpty = false := rfl
  simp [h6]

/-- A line that starts with a digit is rejected by the caption pattern: the
label alternation is mandatory. -/
theorem regexGroup2_digit_start (c : Char) (cs : List Char)
    (hc : isReDigit c = true) : regexGroup2 ⟨c :: cs⟩ = none := by
  have h1 : stripPrefixCI "table".data (c :: cs) = none :=
    stripPrefixCI_of_ne 't' "able".data c cs (digit_toLower_ne_t hc)
  have h2 : stripPrefixCI "figure".data (c :: cs) = none :=
    stripPrefixCI_of_ne 'f' "igure".data c cs (digit_toLower_ne_f hc)
  have h3 : stripPrefixCI "fig".data (c :: cs) = none :=
    stripPrefixCI_of_ne 'f' "ig".data c cs (digit_toLower_ne_f hc)
  rw [regexGroup2]
  rw [show (String.mk (c :: cs)).data = c :: cs from rfl]
  rw [h1, h2, h3]
  rfl

/-- Lines of the shape label, whitespace, digits, separators, remainder are
accepted with the remainder as the captured caption body. -/
theorem regexGroup2_shape (lbl ws ds seps rest : List Char)
    (hlbl : lbl.map Char.toLower = "table".data ∨
      lbl.map Char.toLower = "fig".data ∨
      lbl.map Char.toLower = "figure".data)
    (hws : ∀ c ∈ ws, isReSpace c = true)
    (hds : ds ≠ []) (hds2 : ∀ c ∈ ds, isReDigit c = true)
    (hseps : ∀ c ∈ seps, isSepCh c = true)
    (hrest : ∀ c ∈ rest, (!(c == '\n')) = true)
    (hhead : restHeadOK seps rest = true) :
    regexGroup2 ⟨lbl ++ (ws ++ (ds ++ (seps ++ rest)))⟩ = some ⟨rest⟩ := by
  have hafter := afterLabel_shape ws ds seps rest hws hds hds2 hseps hrest hhead
  rcases hlbl with hlbl | hlbl | hlbl
  · have h1 := stripPrefixCI_cover lbl "table".data
      (ws ++ (ds ++ (seps ++ rest))) hlbl
    rw [regexGroup2]
    rw [show (String.mk (lbl ++ (ws ++ (ds ++ (seps ++ rest))))).data =
      lbl ++ (ws ++ (ds ++ (seps ++ rest))) from rfl]
    rw [h1]
    simp [hafter]
  · -- label lowercases to fig: the table attempt fails on the first
    -- character, the figure attempt fails on the fourth character (which is
    -- whitespace or a digit, never the letter u), the fig attempt succeeds.
    rcases lbl with _ | ⟨c1, lbl⟩
    · simp at hlbl
    rcases lbl with _ | ⟨c2, lbl⟩
    · simp at hlbl
    rcases lbl with _ | ⟨c3, lbl⟩
    · simp at hlbl
    rcases lbl with _ | ⟨c4, lbl⟩
    swap
    · simp [List.map_cons] at hlbl
    have hc : [c1.toLower, c2.toLower, c3.toLower] = ['f', 'i', 'g'] := by
      simpa using hlbl
    simp only [List.cons.injEq] at hc
    obtain ⟨hc1, hc2, hc3, -⟩ := hc
    have h1 : stripPrefixCI "table".data (c1 :: c2 :: c3 ::
        (ws ++ (ds ++ (seps ++ rest)))) = none :=
      stripPrefixCI_of_ne 't' "able".data c1 _ (by rw [hc1]; decide)
    have h2 : stripPrefixCI "figure".data (c1 :: c2 :: c3 ::
        (ws ++ (ds ++ (seps ++ rest)))) = none := by
      have hgoal : stripPrefixCI ("ure".data)
          (ws ++ (ds ++ (seps ++ rest))) = none := by
        rcases ws with _ | ⟨w, ws'⟩
        · rcases ds with _ | ⟨d, ds'⟩
          · exact absurd rfl hds
          · have hd := hds2 d (List.mem_cons_self d ds')
            exact stripPrefixCI_of_ne 'u' "re".data d _ (digit_toLower_ne_u hd)
        · have hw := hws w (List.mem_cons_self w ws')
          exact stripPrefixCI_of_ne 'u' "re".data w _ (space_toLower_ne_u hw)
      show stripPrefixCI ('f' :: 'i' :: 'g' :: "ure".data) (c1 :: c2 :: c3 ::
        (ws ++ (ds ++ (seps ++ rest)))) = none
      simp only [stripPrefixCI, if_pos hc1, if_pos hc2, if_pos hc3]
      exact hgoal
    have h3 : stripPrefixCI "fig".data ((c1 :: c2 :: c3 :: []) ++
        (ws ++ (ds ++ (seps ++ rest)))) = some (ws ++ (ds ++ (seps ++ rest))) :=
      stripPrefixCI_cover (c1 :: c2 :: c3 :: []) "fig".data _ (by
        simpa using hlbl)
    rw [regexGroup2]
    rw [show (String.mk ((c1 :: c2 :: c3 :: []) ++
      (ws ++ (ds ++ (seps ++ rest))))).data =
      c1 :: c2 :: c3 :: (ws ++ (ds ++ (seps ++ rest))) from rfl]
    rw [h1, h2]
    have h3b : stripPrefixCI "fig".data (c1 :: c2 :: c3 ::
        (ws ++ (ds ++ (seps ++ rest)))) = some (ws ++ (ds ++ (seps ++ rest))) := by
      simpa using h3
    rw [h3b]
    simp [hafter]
  · -- label lowercases to figure: the table attempt fails on the first
    -- character, the figure attempt succeeds.
    have hne : lbl ≠ [] := by
      intro hnil
      rw [hnil] at hlbl
      simp at hlbl
    rcases lbl with _ | ⟨c1, lbl'⟩
    · exact absurd rfl hne
    have hc1 : c1.toLower = 'f' := by
      simp only [List.map_cons] at hlbl
      have := (List.cons.inj hlbl).1
      simpa using this
    have h1 : stripPrefixCI "table".data (c1 :: lbl' ++
        (ws ++ (ds ++ (seps ++ rest)))) = none :=
      stripPrefixCI_of_ne 't' "able".data c1 _ (by rw [hc1]; decide)
    have h2 := stripPrefixCI_cover (c1 :: lbl') "figure".data
      (ws ++ (ds ++ (seps ++ rest))) hlbl
    rw [regexGroup2]
    rw [show (String.mk ((c1 :: lbl') ++ (ws ++ (ds ++ (seps ++ rest))))).data =
      (c1 :: lbl') ++ (ws ++ (ds ++ (seps ++ rest))) from rfl]
    rw [show ((c1 :: lbl') ++ (ws ++ (ds ++ (seps ++ rest)))) =
      c1 :: (lbl' ++ (ws ++ (ds ++ (seps ++ rest)))) from rfl] at h1 ⊢
    rw [h1]
    rw [show c1 :: (lbl' ++ (ws ++ (ds ++ (seps ++ rest)))) =
      (c1 :: lbl') ++ (ws ++ (ds ++ (seps ++ rest))) from rfl, h2]
    simp [hafter]

/-! ### Run collapse of the filename substitution -/

/-- Boundary condition closing a maximal substituted run: the suffix is empty
or starts with a kept character. -/
def headKeepOK : List Char → Bool
  | [] => true
  | c :: _ => isKeep c

theorem sanitizeAux_keep (flag : Bool) (c : Char) (cs : List Char)
    (h : isKeep c = true) :
    sanitizeAux flag (c :: cs) = c :: sanitizeAux false cs := by
  simp [sanitizeAux, h]

theorem sanitizeAux_true_bad :
    ∀ (bad rest : List Char), (∀ c ∈ bad, isKeep c = false) →
      sanitizeAux true (bad ++ rest) = sanitizeAux true rest := by
  intro bad
  induction bad with
  | nil => intro rest _; rfl
  | cons b bs ih =>
    intro rest hall
    have hb : isKeep b = false := hall b (List.mem_cons_self b bs)
    simp only [List.cons_append, sanitizeAux, hb]
    simpa using ih rest (fun c hc => hall c (List.mem_cons_of_mem b hc))

theorem sanitizeAux_flag_eq (rest : List Char) (h : headKeepOK rest = true) :
    sanitizeAux true rest = sanitizeAux false rest := by
  cases rest with
  | nil => rfl
  | cons c cs =>
    have hc : isKeep c = true := h
    rw [sanitizeAux_keep true c cs hc, sanitizeAux_keep false c cs hc]

/-- A maximal run of substituted characters, bounded by kept characters on
both sides, becomes exactly one underscore. -/
theorem sanitize_run (xs bad ys : List Char)
    (hxs : ∀ c ∈ xs, isKeep c = true) (hbad1 : bad ≠ [])
    (hbad : ∀ c ∈ bad, isKeep c = false) (hys : headKeepOK ys = true) :
    sanitizeAux false (xs ++ (bad ++ ys)) =
      xs ++ '_' :: sanitizeAux false ys := by
  induction xs with
  | nil =>
    rcases bad with _ | ⟨b, bs⟩
    · exact absurd rfl hbad1
    have hb : isKeep b = false := hbad b (List.mem_cons_self b bs)
    have step : sanitizeAux false ((b :: bs) ++ ys) =
        '_' :: sanitizeAux true (bs ++ ys) := by
      simp [sanitizeAux, hb]
    rw [List.nil_append, step,
      sanitizeAux_true_bad bs ys
        (fun c hc => hbad c (List.mem_cons_of_mem b hc)),
      sanitizeAux_flag_eq ys hys, List.nil_append]
  | cons x xs ih =>
    have hx : isKeep x = true := hxs x (List.mem_cons_self x xs)
    rw [List.cons_append, sanitizeAux_keep false x _ hx,
      ih (fun c hc => hxs c (List.mem_cons_of_mem x hc)), List.cons_append]

/-! ### Values delivered by the caption search -/

theorem string_eq_empty_iff {s : String} : s = "" ↔ s.data = [] := by
  constructor
  · intro h; rw [h]
  · intro h; exact string_data_inj h

theorem lineCaption_some_val {line c : String}
    (h : lineCaption line = some (some c)) :
    c ≠ "" ∧ c.data.length ≤ 40 ∧
      ∃ body, regexGroup2 line = some body ∧
        c = ⟨(pysub (pstrip body)).data.take 40⟩ := by
  cases hre : regexGroup2 line with
  | none => simp [lineCaption, hre] at h
  | some g2 =>
    simp only [lineCaption, hre] at h
    by_cases hz : pysub (pstrip g2) = ""
    · simp [hz] at h
    · rw [if_neg hz] at h
      have h2 := Option.some.inj (Option.some.inj h)
      refine ⟨?_, ?_, g2, rfl, h2.symm⟩
      · rw [← h2]
        rw [Ne, string_eq_empty_iff]
        rcases hd : (pysub (pstrip g2)).data with _ | ⟨x, xs⟩
        · exact absurd (string_eq_empty_iff.mpr hd) hz
        · simp
      · rw [← h2]
        simp only [List.length_take]
        exact min_le_left 40 _

theorem lineScan_some_val :
    ∀ (lines : List String) (r : Option String), lineScan lines = some r →
      ∃ line, lineCaption line = some r := by
  intro lines
  induction lines with
  | nil => intro r h; simp [lineScan] at h
  | cons l ls ih =>
    intro r h
    cases hl : lineCaption l with
    | none =>
      simp only [lineScan, hl] at h
      exact ih r h
    | some r2 =>
      simp only [lineScan, hl] at h
      exact ⟨l, by rw [hl, Option.some.inj h]⟩

theorem areaScan_some_val (p : Page) :
    ∀ (areas : List BBox) (s : String), areaScan p areas = some s →
      ∃ line, lineCaption line = some (some s) := by
  intro areas
  induction areas with
  | nil => intro s h; simp [areaScan] at h
  | cons a rest ih =>
    intro s h
    cases hw : withinText p a with
    | none =>
      simp only [areaScan, hw] at h
      exact ih s h
    | some t =>
      simp only [areaScan, hw] at h
      cases hls : lineScan (cleanLines t) with
      | none =>
        simp only [hls] at h
        exact ih s h
      | some r =>
        simp only [hls] at h
        rw [h] at hls
        exact lineScan_some_val (cleanLines t) (some s) hls

/-- The caption search never returns an empty caption string: an empty body
after cleaning makes it return no caption at all. -/
theorem find_caption_some_ne_empty {p : Page} {b : BBox} {s : String}
    (h : find_caption p b = some s) : s ≠ "" := by
  obtain ⟨line, hline⟩ :=
    areaScan_some_val p [aboveBand b, belowBand p b] s h
  exact (lineCaption_some_val hline).1

/-! ### Provenance of the PNG artifacts -/

theorem pngArts_append (l1 l2 : List Artifact) :
    pngArts (l1 ++ l2) = pngArts l1 ++ pngArts l2 := by
  simp [pngArts, List.filterMap_append]

theorem pngArts_png_cons (n : String) (b : BBox) (l : List Artifact) :
    pngArts (Artifact.png n b :: l) = (n, b) :: pngArts l := rfl

theorem pngArts_csv_cons (n : String) (tb : Table) (l : List Artifact) :
    pngArts (Artifact.csv n tb :: l) = pngArts l := rfl

theorem processTables_pngArts (stem : String) (p : Page) (pg : Nat) :
    ∀ (tbls : List Table) (t : Nat),
      pngArts (processTables stem p pg tbls t).1 = [] := by
  intro tbls
  induction tbls with
  | nil => intro t; simp [processTables, pngArts]
  | cons tb rest ih =>
    intro t
    rw [processTables_cap, pngArts_csv_cons]
    exact ih (t + 1)

theorem tables_pngArts_empty (ct : Bool) (stem : String) (p : Page)
    (pg t : Nat) :
    pngArts (if ct then processTables stem p pg p.tables t else ([], t)).1
      = [] := by
  by_cases hct : ct
  · simp [hct, processTables_pngArts]
  · simp [hct, pngArts]

theorem processImages_pngArts_length (stem : String) (p : Page) (pg : Nat) :
    ∀ (imgs : List BBox) (i : Nat),
      (pngArts (processImages stem p pg imgs i).1).length =
        imgs.countP (fun b => bboxOk p b) := by
  intro imgs
  induction imgs with
  | nil => intro i; simp [processImages, pngArts]
  | cons b rest ih =>
    intro i
    by_cases hok : bboxOk p b = true
    · rw [processImages_valid stem p pg b rest i hok, pngArts_png_cons]
      simp [List.countP_cons, hok, ih (i + 1)]
    · rw [processImages_skip stem p pg b rest i (by simpa using hok)]
      simp [List.countP_cons, ih i]
      simp [Bool.eq_false_iff.mpr hok]

/-- The j-th PNG artifact of one page's image loop comes from a valid image
box of that page, and its name is built from the caption lookup on that very
box, with the counter value i plus j in the fallback. -/
theorem processImages_pngArts_get (stem : String) (p : Page) (pg : Nat) :
    ∀ (imgs : List BBox) (i j : Nat) (nm : String) (b2 : BBox),
      (pngArts (processImages stem p pg imgs i).1).get? j = some (nm, b2) →
      b2 ∈ imgs ∧ bboxOk p b2 = true ∧
        nm = outName stem
          (captionOr (find_caption p b2) ("figure_" ++ natRepr (i + j)))
          pg ".png" := by
  intro imgs
  induction imgs with
  | nil => intro i j nm b2 h; simp [processImages, pngArts] at h
  | cons b rest ih =>
    intro i j nm b2 h
    by_cases hok : bboxOk p b = true
    · rw [processImages_valid stem p pg b rest i hok, pngArts_png_cons] at h
      cases j with
      | zero =>
        rw [List.get?_cons_zero] at h
        have h2 := Option.some.inj h
        rw [Prod.ext_iff] at h2
        obtain ⟨h3, h4⟩ := h2
        simp only at h3 h4
        rw [← h4]
        refine ⟨List.mem_cons_self b rest, hok, ?_⟩
        rw [← h3]
        norm_num
      | succ j =>
        rw [List.get?_cons_succ] at h
        obtain ⟨hmem, hok2, hname⟩ := ih (i + 1) j nm b2 h
        refine ⟨List.mem_cons_of_mem b hmem, hok2, ?_⟩
        rw [hname]
        have harith : i + 1 + j = i + (j + 1) := by omega
        rw [harith]
    · rw [processImages_skip stem p pg b rest i (by simpa using hok)] at h
      obtain ⟨hmem, hok2, hname⟩ := ih i j nm b2 h
      exact ⟨List.mem_cons_of_mem b hmem, hok2, hname⟩

/-- The j-th PNG artifact of the page loop comes from a valid image box of
the k-th processed page, and its name is built from the caption lookup on
that box and page, with the counter value i plus j in the fallback and the
page number pg plus k. -/
theorem processPages_pngArts_get (ct ci : Bool) (stem : String) :
    ∀ (pages : List Page) (pg t i j : Nat) (nm : String) (b2 : BBox),
      (pngArts (processPages ct ci stem pages pg t i)).get? j =
        some (nm, b2) →
      ∃ k p, pages.get? k = some p ∧ b2 ∈ p.images ∧ bboxOk p b2 = true ∧
        nm = outName stem
          (captionOr (find_caption p b2) ("figure_" ++ natRepr (i + j)))
          (pg + k) ".png" := by
  intro pages
  induction pages with
  | nil => intro pg t i j nm b2 h; simp [processPages, pngArts] at h
  | cons p rest ih =>
    intro pg t i j nm b2 h
    rw [processPages_cons, List.append_assoc, pngArts_append, pngArts_append,
      tables_pngArts_empty, List.nil_append] at h
    by_cases hci : ci
    · rw [if_pos hci] at h
      have hlen := processImages_pngArts_length stem p pg p.images i
      by_cases hj : j < (pngArts (processImages stem p pg p.images i).1).length
      · rw [List.get?_append hj] at h
        obtain ⟨hmem, hok2, hname⟩ :=
          processImages_pngArts_get stem p pg p.images i j nm b2 h
        refine ⟨0, p, rfl, hmem, hok2, ?_⟩
        rw [hname]
        norm_num
      · rw [List.get?_append_right (le_of_not_lt hj)] at h
        rw [processImages_snd] at h
        obtain ⟨k, p2, hget, hmem, hok2, hname⟩ :=
          ih (pg + 1) _ (i + p.images.countP (fun b => bboxOk p b)) _ nm b2 h
        refine ⟨k + 1, p2, by simpa using hget, hmem, hok2, ?_⟩
        rw [hname]
        have harith : i + p.images.countP (fun b => bboxOk p b) +
            (j - (pngArts (processImages stem p pg p.images i).1).length) =
            i + j := by omega
        have harith2 : pg + 1 + k = pg + (k + 1) := by omega
        rw [harith, harith2]
    · rw [if_neg hci] at h
      simp only [pngArts, List.filterMap_nil, List.nil_append] at h
      obtain ⟨k, p2, hget, hmem, hok2, hname⟩ := ih (pg + 1) _ i j nm b2 h
      refine ⟨k + 1, p2, by simpa using hget, hmem, hok2, ?_⟩
      rw [hname]
      have harith2 : pg + 1 + k = pg + (k + 1) := by omega
      rw [harith2]

theorem extract_pngArts (ct ci : Bool) (stem : String) (pdf : PDF) :
    pngArts (extract_and_save_from_pdf ct ci stem pdf) =
      pngArts (processPages ct ci stem pdf.pages 1 1 1) := rfl

example : regexGroup2 "Table 1: Revenue by Quarter" = some "Revenue by Quarter" := by decide
example : regexGroup2 "1: Revenue" = none := by decide
example : regexGroup2 "Fig 2." = some "" := by decide
example : regexGroup2 "Figure 12- stuff" = some "stuff" := by decide
example : regexGroup2 "Fig. 3: nope" = none := by decide
example : lineCaption "Table 1: a,,b" = some (some "a_b") := by decide
example : lineCaption "Table 1:" = some none := by decide
example : natRepr 12 = "12" := by decide
example : pymax 0 ((0 : ℤ) - 40) = 0 := by decide

/-! ## Concrete fixtures used by counterexamples and witnesses -/

/-- A 3-by-4 revenue table. -/
def revTable : Table :=
  [[some "Q1", some "10", some "20", some "30"],
   [some "Q2", some "11", some "21", some "31"],
   [some "Q3", some "12", some "22", some "32"]]

/-- Single page whose text holds the caption line of the end-to-end scenario,
with one detected table; the region oracle would deliver the caption line for
any readable region. -/
def revPage : Page where
  width := 612
  height := 792
  pageText := some "Table 1: Revenue by Quarter\nQ1 10 20 30"
  regionText := fun _ => some "Table 1: Revenue by Quarter"
  tables := [revTable]
  images := []

def revPdf : PDF := ⟨[revPage]⟩

/-- Page with two identical embedded images whose caption search both succeed
with the same caption. -/
def dupPage : Page where
  width := 100
  height := 100
  pageText := some "x"
  regionText := fun b => if b = ⟨10, 10, 20, 50⟩ then some "Figure 1: Foo" else none
  tables := []
  images := [⟨10, 50, 20, 60⟩, ⟨10, 50, 20, 60⟩]

/-- Page whose caption region delivers a caption line with an empty body. -/
def emptyCapPage : Page where
  width := 100
  height := 100
  pageText := some ""
  regionText := fun _ => some "Table 1:"
  tables := []
  images := []

/-- Page whose bands above and below the probe box both hold a caption line. -/
def twoBandPage : Page where
  width := 100
  height := 100
  pageText := some ""
  regionText := fun b =>
    if b = ⟨10, 10, 20, 50⟩ then some "Table 1: Above"
    else if b = ⟨10, 60, 20, 100⟩ then some "Table 2: Below" else none
  tables := []
  images := []

def twoBandBox : BBox := ⟨10, 50, 20, 60⟩

/-- Featureless page used where only dimensions matter. -/
def plainPage : Page where
  width := 100
  height := 100
  pageText := some ""
  regionText := fun _ => none
  tables := []
  images := []

/-- First page of the two-page batch: one table, one zero-width image (whose
crop fails) followed by one valid image; no caption is ever found. -/
def batchPage1 : Page where
  width := 100
  height := 100
  pageText := some "a"
  regionText := fun _ => none
  tables := [[[some "x"]]]
  images := [⟨5, 5, 5, 9⟩, ⟨10, 50, 20, 60⟩]

/-- Second page of the two-page batch: one more table. -/
def batchPage2 : Page where
  width := 100
  height := 100
  pageText := some "b"
  regionText := fun _ => none
  tables := [[[some "y"]]]
  images := []

def batchPdf : PDF := ⟨[batchPage1, batchPage2]⟩

/-- One-page document with one table, its caption present in the page text. -/
def onePage : Page where
  width := 100
  height := 100
  pageText := some "t"
  regionText := fun _ => some "Table 5: Caption"
  tables := [[[some "x"]]]
  images := []

def onePdf : PDF := ⟨[onePage]⟩

/-! ## Claims -/

/-- C1, counterexample: filenames are not always unique within one document.
Two images with the same bounding box on the same page receive the same
caption Foo, so both PNG artifacts are written to the same filename and the
name list of the run is not nodup. -/
theorem c1_counterexample :
    ¬ ((extract_and_save_from_pdf false true "d" ⟨[dupPage]⟩).map
      Artifact.name).Nodup := by decide

/-- C1, amended: the per-kind counters make exactly the counter-based names
unique.  Table CSV names are always unique within one document, because the
full-page caption anchor never finds a caption, so every CSV name embeds the
fresh table counter; PNG names are unique whenever no image caption is found,
but caption-derived PNG names may collide. -/
theorem c1_amended_uniqueness (ct ci : Bool) (stem : String) (pdf : PDF) :
    (csvNames (extract_and_save_from_pdf ct ci stem pdf)).Nodup ∧
    ((∀ p ∈ pdf.pages, ∀ b ∈ p.images, find_caption p b = none) →
      (pngNames (extract_and_save_from_pdf ct ci stem pdf)).Nodup) := by
  constructor
  · rw [extract_csvNames]
    exact processPages_csvNames_nodup ct ci stem pdf.pages 1 1 1
  · intro h
    rw [extract_pngNames]
    exact processPages_pngNames_nodup_nocap ct ci stem pdf.pages 1 1 1 h

/-- C1, witness for the amended claim on the two-page batch document. -/
theorem c1_witness :
    (csvNames (extract_and_save_from_pdf true true "d" batchPdf)).Nodup ∧
    (pngNames (extract_and_save_from_pdf true true "d" batchPdf)).Nodup := by
  have h := c1_amended_uniqueness true true "d" batchPdf
  exact ⟨h.1, h.2 (by decide)⟩

/-- C2: on the single-page scenario document the run writes the page text to
doc.txt and the 3-by-4 table to a CSV, but the CSV is named with the
table_1 fallback, not with the caption, because the caption lookup for
tables is anchored at the full page box and both its search bands collapse
to zero area.  The caption-derived name of the claim is never produced. -/
theorem c2_scenario_eval :
    extract_and_save_from_pdf true false "doc" revPdf =
      [Artifact.text "doc.txt" "Table 1: Revenue by Quarter\nQ1 10 20 30",
       Artifact.csv "doc_table_1_p1.csv" revTable] ∧
    revTable.length = 3 ∧ (∀ row ∈ revTable, row.length = 4) ∧
    "doc_Revenue_by_Quarter_p1.csv" ∉
      (extract_and_save_from_pdf true false "doc" revPdf).map Artifact.name := by
  refine ⟨by decide, by decide, by decide, by decide⟩

/-- C3, counterexample: a caption line with an empty body makes find_caption
return no caption at all, never the sentinel string of the claim. -/
theorem c3_counterexample :
    lineCaption "Table 1:" = some none ∧
    find_caption emptyCapPage ⟨0, 50, 100, 60⟩ = none ∧
    find_caption emptyCapPage ⟨0, 50, 100, 60⟩ ≠ some "no caption found" := by
  refine ⟨by decide, by decide, by decide⟩

/-- C3, amended: an empty caption body after cleaning makes the matching line
yield no caption (the search returns immediately with None and the caller
falls back to counter naming); find_caption never returns an empty string. -/
theorem c3_amended_no_sentinel :
    (∀ (p : Page) (b : BBox) (s : String), find_caption p b = some s →
      s ≠ "") ∧
    (∀ (line body : String), regexGroup2 line = some body →
      pysub (pstrip body) = "" → lineCaption line = some none) := by
  constructor
  · intro p b s h
    exact find_caption_some_ne_empty h
  · intro line body hre hz
    simp [lineCaption, hre, hz]

/-- C3, witness: the line Fig 2. matches with an empty body and yields None. -/
theorem c3_witness : lineCaption "Fig 2." = some none :=
  c3_amended_no_sentinel.2 "Fig 2." "" (by decide) (by decide)

/-- C4, counterexample: a line beginning directly with digits does not match
the caption pattern, contradicting the claim that the label is optional. -/
theorem c4_counterexample : regexGroup2 "1: Revenue" = none := by decide

/-- C4, amended: the case-insensitive label Table or Fig or Figure is
mandatory, followed by optional whitespace, one or more digits, zero or more
separators, capturing the remainder; a line beginning directly with digits
never matches. -/
theorem c4_amended_mandatory_label :
    (∀ (c : Char) (cs : List Char), isReDigit c = true →
      regexGroup2 ⟨c :: cs⟩ = none) ∧
    (∀ (lbl ws ds seps rest : List Char),
      (lbl.map Char.toLower = "table".data ∨
        lbl.map Char.toLower = "fig".data ∨
        lbl.map Char.toLower = "figure".data) →
      (∀ c ∈ ws, isReSpace c = true) →
      ds ≠ [] → (∀ c ∈ ds, isReDigit c = true) →
      (∀ c ∈ seps, isSepCh c = true) →
      (∀ c ∈ rest, (!(c == '\n')) = true) →
      restHeadOK seps rest = true →
      regexGroup2 ⟨lbl ++ (ws ++ (ds ++ (seps ++ rest)))⟩ = some ⟨rest⟩) :=
  ⟨regexGroup2_digit_start, regexGroup2_shape⟩

/-- C4, witness: a labelled line matches with the remainder captured, a
digit-led line does not match. -/
theorem c4_witness :
    regexGroup2 ⟨"Table".data ++ (" ".data ++ ("3".data ++
      (": ".data ++ "Results".data)))⟩ = some ⟨"Results".data⟩ ∧
    regexGroup2 ⟨'4' :: " items".data⟩ = none := by
  constructor
  · exact c4_amended_mandatory_label.2 "Table".data " ".data "3".data
      ": ".data "Results".data (Or.inl (by decide)) (by decide) (by decide)
      (by decide) (by decide) (by decide) (by decide)
  · exact c4_amended_mandatory_label.1 '4' " items".data (by decide)

/-- C5: every caption returned through a matched line is the cleaned body
truncated to 40 characters, so its length never exceeds 40; and the cleaning
replaces every maximal run of non-word non-hyphen characters, delimited by
kept characters, by a single underscore. -/
theorem c5_caption_sanitization :
    (∀ (line c : String), lineCaption line = some (some c) →
      c.data.length ≤ 40 ∧ ∃ body, regexGroup2 line = some body ∧
        c = ⟨(pysub (pstrip body)).data.take 40⟩) ∧
    (∀ (xs bad ys : List Char), (∀ ch ∈ xs, isKeep ch = true) → bad ≠ [] →
      (∀ ch ∈ bad, isKeep ch = false) → headKeepOK ys = true →
      (pysub ⟨xs ++ (bad ++ ys)⟩).data = xs ++ '_' :: sanitizeAux false ys) := by
  constructor
  · intro line c h
    obtain ⟨-, h2, body, h3, h4⟩ := lineCaption_some_val h
    exact ⟨h2, body, h3, h4⟩
  · intro xs bad ys h1 h2 h3 h4
    exact sanitize_run xs bad ys h1 h2 h3 h4

/-- C5, witness: the line with body a,,b is cleaned to a_b within bounds. -/
theorem c5_witness :
    ("a_b" : String).data.length ≤ 40 ∧
      ∃ body, regexGroup2 "Table 1: a,,b" = some body ∧
        ("a_b" : String) = ⟨(pysub (pstrip body)).data.take 40⟩ :=
  c5_caption_sanitization.1 "Table 1: a,,b" "a_b" (by decide)

/-- C6: the text written to the text file is the page texts concatenated in
page order with no separator, a page without extractable text contributing
the empty string. -/
theorem c6_text_concatenation (pdf : PDF) :
    fullText pdf = String.join (pdf.pages.map (fun p => p.pageText.getD "")) := by
  simp only [fullText, String.join, List.foldl_map]

/-- C7: the band above the box is searched first, and its first matching line
decides the result of the whole search, whatever the band below holds. -/
theorem c7_above_band_priority (p : Page) (b : BBox) (r : Option String)
    (hok : bboxOk p (aboveBand b) = true)
    (hscan : lineScan (cleanLines ((p.regionText (aboveBand b)).getD "")) =
      some r) :
    find_caption p b = r := by
  have hw : withinText p (aboveBand b) =
      some ((p.regionText (aboveBand b)).getD "") := by
    simp [withinText, hok]
  simp only [find_caption, areaScan, hw, hscan]

/-- C7, witness: with captions in both bands, the above band wins. -/
theorem c7_witness : find_caption twoBandPage twoBandBox = some "Above" :=
  c7_above_band_priority twoBandPage twoBandBox (some "Above") (by decide)
    (by decide)

/-- C8: within one run starting both counters at one, the j-th CSV artifact
(zero-based, in output order, global across pages) carries the table counter
value j plus one; and the j-th PNG artifact (zero-based, in output order,
global across pages) stems from a valid (successfully cropped) image box of
the k-th page and is named from the caption lookup on that very box, the
fallback embedding the image counter value j plus one, so a no-caption image
is named figure_(j+1): the counter starts at one, is not reset per page,
and advances once per successfully cropped image only, since skipped crops
produce no artifact; the two counters are independent. -/
theorem c8_fallback_counters (ct ci : Bool) (stem : String) (pdf : PDF) :
    (∀ (j : Nat) (nm : String),
      (csvNames (extract_and_save_from_pdf ct ci stem pdf)).get? j =
        some nm → ∃ pg, nm = tblName stem (j + 1) pg) ∧
    (∀ (j : Nat) (nm : String) (b : BBox),
      (pngArts (extract_and_save_from_pdf ct ci stem pdf)).get? j =
        some (nm, b) →
      ∃ k p, pdf.pages.get? k = some p ∧ b ∈ p.images ∧ bboxOk p b = true ∧
        nm = outName stem
          (captionOr (find_caption p b) ("figure_" ++ natRepr (j + 1)))
          (1 + k) ".png") := by
  constructor
  · intro j nm h
    rw [extract_csvNames] at h
    obtain ⟨pgn, -, he⟩ :=
      processPages_csvNames_get ct ci stem pdf.pages 1 1 1 j nm h
    refine ⟨pgn, ?_⟩
    rw [he, show 1 + j = j + 1 from by omega]
  · intro j nm b h
    rw [extract_pngArts] at h
    obtain ⟨k, p, hget, hmem, hok, hname⟩ :=
      processPages_pngArts_get ct ci stem pdf.pages 1 1 1 j nm b h
    refine ⟨k, p, hget, hmem, hok, ?_⟩
    rw [hname, show 1 + j = j + 1 from by omega]

/-- C8, witness on the two-page batch: the second CSV carries counter two on
page two, and the first PNG stems from the valid image of page one and is
named from its (failed) caption lookup with counter one, although an earlier
image of that page was skipped by a failed crop. -/
theorem c8_witness :
    (∃ pg, "d_table_2_p2.csv" = tblName "d" (1 + 1) pg) ∧
    (∃ k p, batchPdf.pages.get? k = some p ∧
      (⟨10, 50, 20, 60⟩ : BBox) ∈ p.images ∧
      bboxOk p ⟨10, 50, 20, 60⟩ = true ∧
      "d_figure_1_p1.png" = outName "d"
        (captionOr (find_caption p ⟨10, 50, 20, 60⟩)
          ("figure_" ++ natRepr (0 + 1))) (1 + k) ".png") := by
  constructor
  · exact (c8_fallback_counters true true "d" batchPdf).1 1 "d_table_2_p2.csv"
      (by decide)
  · exact (c8_fallback_counters true true "d" batchPdf).2 0 "d_figure_1_p1.png"
      ⟨10, 50, 20, 60⟩ (by decide)

/-- C9: an image whose bounding box has zero area is skipped by the failed
crop: the image loop produces exactly the artifacts and counter it would
produce without that image, so no other image of the page is affected. -/
theorem c9_zero_area_skip (stem : String) (p : Page) (pg : Nat)
    (pre post : List BBox) (img : BBox) (i : Nat)
    (hz : img.x0 = img.x1 ∨ img.top = img.bottom) :
    processImages stem p pg (pre ++ img :: post) i =
      processImages stem p pg (pre ++ post) i := by
  have hok : bboxOk p img = false := by
    rcases hz with hz | hz
    · simp [bboxOk, hz]
    · simp [bboxOk, hz]
  induction pre generalizing i with
  | nil =>
    simpa using processImages_skip stem p pg img post i hok
  | cons b bs ih =>
    by_cases hb : bboxOk p b = true
    · rw [List.cons_append, List.cons_append,
        processImages_valid stem p pg b _ i hb,
        processImages_valid stem p pg b _ i hb, ih (i + 1)]
    · rw [List.cons_append, List.cons_append,
        processImages_skip stem p pg b _ i (by simpa using hb),
        processImages_skip stem p pg b _ i (by simpa using hb), ih i]

/-- C9, witness: dropping a zero-width image between two valid ones leaves
the processing of the others untouched. -/
theorem c9_witness :
    processImages "d" plainPage 1
        ([⟨0, 0, 10, 10⟩] ++ ⟨5, 5, 5, 9⟩ :: [⟨20, 20, 30, 30⟩]) 1 =
      processImages "d" plainPage 1 ([⟨0, 0, 10, 10⟩] ++ [⟨20, 20, 30, 30⟩]) 1 :=
  c9_zero_area_skip "d" plainPage 1 [⟨0, 0, 10, 10⟩] [⟨20, 20, 30, 30⟩]
    ⟨5, 5, 5, 9⟩ 1 (Or.inl rfl)

/-- C10: anchored at the full page box, both caption search bands collapse to
zero height and are skipped, so find_caption returns no caption on every
page; consequently every table CSV of every run is named with the table
counter fallback. -/
theorem c10_fullpage_no_caption :
    (∀ p : Page, find_caption p ⟨0, 0, p.width, p.height⟩ = none) ∧
    (∀ (ct ci : Bool) (stem : String) (pdf : PDF) (nm : String),
      nm ∈ csvNames (extract_and_save_from_pdf ct ci stem pdf) →
      ∃ k pg, nm = tblName stem k pg) := by
  constructor
  · exact find_caption_fullPage
  · intro ct ci stem pdf nm hmem
    rw [extract_csvNames] at hmem
    obtain ⟨j, hj⟩ := List.mem_iff_get?.mp hmem
    obtain ⟨pgn, -, he⟩ :=
      processPages_csvNames_get ct ci stem pdf.pages 1 1 1 j nm hj
    exact ⟨1 + j, pgn, he⟩

/-- C10, witness: on the one-page document whose region oracle would deliver
a caption line everywhere, the full-page anchor still finds nothing and the
only CSV is the fallback name. -/
theorem c10_witness :
    find_caption onePage ⟨0, 0, onePage.width, onePage.height⟩ = none ∧
    ∃ k pg, "d_table_1_p1.csv" = tblName "d" k pg := by
  constructor
  · exact c10_fullpage_no_caption.1 onePage
  · exact c10_fullpage_no_caption.2 true false "d" onePdf "d_table_1_p1.csv"
      (by decide)
